import Mathlib

/-
Shallow embedding of the two documentation validators of this repository:

  * `.github/hooks/validate-doc-metadata.py`  (class `DocMetadataValidator`)
  * `.github/scripts/validate-doc-links.py`   (class `LinkValidator`)

Text is modelled as `List Char`; paths are lists of path segments
(`List String`).  The Python regular expressions used by the scripts are
small and fixed, so each one is translated into an explicit matching
function with the same (leftmost search, greedy/lazy backtracking)
semantics, restricted to the ASCII reading of `\w` and `\s`.
Error and warning messages are modelled as structured values carrying
exactly the data interpolated into the corresponding Python f-strings.
-/

namespace Plexica

/-! ### Character helpers (ASCII model of Python `re` character classes) -/

/-- Python `\s` (ASCII): space, tab, newline, carriage return, vertical tab, form feed. -/
def pyIsSpace (c : Char) : Bool :=
  c = ' ' || c = '\t' || c = '\n' || c = '\r' || c = '\x0b' || c = '\x0c'

/-- Python `\w` (ASCII): letters, digits, underscore. -/
def isWordChar (c : Char) : Bool :=
  c.isAlphanum || c = '_'

/-- `leadsWith pat s`: `pat` occurs at the very start of `s`. -/
def leadsWith : List Char → List Char → Bool
  | [], _ => true
  | _ :: _, [] => false
  | a :: as, b :: bs => a = b && leadsWith as bs

/-- All suffixes of a list, longest first (the candidate match positions of `re.search`). -/
def suffixList : List Char → List (List Char)
  | [] => [[]]
  | c :: r => (c :: r) :: suffixList r

/-- Substring occurrence (Python `pat in s`). -/
def hasSub (pat s : List Char) : Bool :=
  (suffixList s).any (fun t => leadsWith pat t)

/-! ### Anchor derivation (`validate-doc-links.py`, lines 48-51 and 107-110)

`anchor = text.lower().replace(' ', '-').replace('&', 'and')`
`anchor = re.sub(r'[^\w\-]', '', anchor)` -/

/-- One anchor-derivation step per character: heading text is lower-cased,
spaces become hyphens, each ampersand becomes the literal word `and`,
then characters outside `\w` and `-` are removed. -/
def deriveAnchor (text : List Char) : List Char :=
  (((text.map Char.toLower).map (fun c => if c = ' ' then '-' else c)).flatMap
      (fun c => if c = '&' then ['a', 'n', 'd'] else [c])).filter
    (fun c => isWordChar c || c = '-')

/-! ### Metadata validator (`validate-doc-metadata.py`) -/

/-- A path, as its list of components (`pathlib.PurePath.parts`). -/
abbrev FPath := List String

/-- The four keys of `REQUIRED_FIELDS`, in declaration order (lines 24-29). -/
inductive Field
  | lastUpdated
  | status
  | owner
  | docType
deriving DecidableEq, Repr

/-- The literal part of each field's pattern (the escaped `\*\*Label\*\*:`). -/
def fieldLit : Field → List Char
  | .lastUpdated => "**Last Updated**:".toList
  | .status => "**Status**:".toList
  | .owner => "**Owner**:".toList
  | .docType => "**Document Type**:".toList

/-- Backtracking split for greedy `\s*` followed by `.`: the largest
`j ≤ w` such that `r` has a character other than a newline at index `j`.
The caller passes the maximal whitespace-run length of `r` as `w`, so every
tried split point is reachable by `\s*`. -/
def bestWsSplit (r : List Char) : Nat → Option Nat
  | 0 =>
    match r.head? with
    | some ch => if ch ≠ '\n' then some 0 else none
    | none => none
  | j + 1 =>
    match (r.drop (j + 1)).head? with
    | some ch => if ch ≠ '\n' then some (j + 1) else bestWsSplit r j
    | none => bestWsSplit r j

/-- The text matched by `\s*.+` at the start of `r` (greedy `\s*`, then `.+`
up to the end of the line), or `none` when it cannot match there. -/
def srddGroup (r : List Char) : Option (List Char) :=
  match bestWsSplit r (r.takeWhile pyIsSpace).length with
  | some j => some (r.take j ++ (r.drop j).takeWhile (fun ch => ch ≠ '\n'))
  | none => none

/-- `re.search` for `LIT\s*.+` (the `Status`, `Owner` and `Document Type`
patterns): scan match positions left to right and return `group(0)` of the
first match. -/
def findSRDD (lit : List Char) : List Char → Option (List Char)
  | [] => none
  | c :: rest =>
    match if leadsWith lit (c :: rest) then srddGroup ((c :: rest).drop lit.length) else none with
    | some g => some (lit ++ g)
    | none => findSRDD lit rest

/-- Shape of `\d{4}-\d{2}-\d{2}` at the start of a string. -/
def dateShape : List Char → Bool
  | a :: b :: c :: d :: '-' :: e :: f :: '-' :: g :: h :: _ =>
    a.isDigit && b.isDigit && c.isDigit && d.isDigit &&
    e.isDigit && f.isDigit && g.isDigit && h.isDigit
  | _ => false

/-- `re.search` for the `Last Updated` pattern
`\*\*Last Updated\*\*:\s*\d{4}-\d{2}-\d{2}`: the ten date characters of the
first match.  After the literal, greedy `\s*` must stop exactly at the end
of the whitespace run, because `\d` cannot match a whitespace character. -/
def luFind : List Char → Option (List Char)
  | [] => none
  | c :: rest =>
    if leadsWith (fieldLit .lastUpdated) (c :: rest) then
      let r := ((c :: rest).drop (fieldLit .lastUpdated).length).dropWhile pyIsSpace
      if dateShape r then some (r.take 10) else luFind rest
    else luFind rest

/-- Whether `re.search(pattern, content)` succeeds for a required field
(lines 74-79). -/
def fieldFound (f : Field) (content : List Char) : Bool :=
  match f with
  | .lastUpdated => (luFind content).isSome
  | .status => (findSRDD (fieldLit .status) content).isSome
  | .owner => (findSRDD (fieldLit .owner) content).isSome
  | .docType => (findSRDD (fieldLit .docType) content).isSome

/-- `REQUIRED_FIELDS` key order. -/
def requiredFields : List Field := [.lastUpdated, .status, .owner, .docType]

/-- `missing_fields` as accumulated by `validate_file` (lines 71-79). -/
def missingFields (content : List Char) : List Field :=
  requiredFields.filter (fun f => ¬ fieldFound f content)

/-- Gregorian leap year. -/
def isLeap (y : Nat) : Bool := y % 4 = 0 && (y % 100 ≠ 0 || y % 400 = 0)

/-- Length of month `m` in year `y`. -/
def monthDays (y : Nat) : Nat → Nat
  | 1 => 31
  | 2 => if isLeap y then 29 else 28
  | 3 => 31
  | 4 => 30
  | 5 => 31
  | 6 => 30
  | 7 => 31
  | 8 => 31
  | 9 => 30
  | 10 => 31
  | 11 => 30
  | 12 => 31
  | _ => 0

/-- Days in year `y` before month `m`. -/
def daysBeforeMonth (y m : Nat) : Nat :=
  (List.range (m - 1)).foldl (fun acc i => acc + monthDays y (i + 1)) 0

/-- Proleptic-Gregorian day number of a calendar date, as used by
`datetime.date.toordinal`; `(d2 - d1).days` for two dates is the difference
of their day numbers. -/
def rataDie (y m d : Nat) : Int :=
  ((365 * (y - 1) + (y - 1) / 4 + (y - 1) / 400 + daysBeforeMonth y m + d : Nat) : Int) -
    (((y - 1) / 100 : Nat) : Int)

/-- Numeric value of an ASCII digit. -/
def digitVal (c : Char) : Nat := c.toNat - 48

/-- `datetime.strptime(date_str, '%Y-%m-%d')` on a ten-character
`\d{4}-\d{2}-\d{2}` string: the day number when the date is valid, `none`
for the `ValueError` that `validate_file` swallows (lines 104-105). -/
def parseDate : List Char → Option Int
  | [a, b, c, d, '-', e, f, '-', g, h] =>
    let y := ((digitVal a * 10 + digitVal b) * 10 + digitVal c) * 10 + digitVal d
    let mo := digitVal e * 10 + digitVal f
    let da := digitVal g * 10 + digitVal h
    if 1 ≤ y ∧ 1 ≤ mo ∧ mo ≤ 12 ∧ 1 ≤ da ∧ da ≤ monthDays y mo then some (rataDie y mo da)
    else none
  | _ => none

/-- Error messages of the metadata validator, as structured values carrying
the data its f-strings interpolate. -/
inductive MErr
  | readFail (path : FPath)
  | missingMeta (path : FPath) (fields : List Field)
deriving DecidableEq, Repr

/-- Warning messages of the metadata validator. -/
inductive MWarn
  | stale (path : FPath) (daysOld : Int)
  | badStatus (path : FPath) (statusValue : List Char)
deriving DecidableEq, Repr

/-- `valid_statuses` (line 109). -/
def validStatuses : List (List Char) :=
  ["Complete".toList, "In Progress".toList, "Planned".toList,
   "Deprecated".toList, "Archived".toList, "Needs Update".toList]

/-- `validate_file` (lines 62-117): the errors and warnings appended for one
file.  `read` models `Path.read_text` (`none` for the caught exception);
`today` is the day number of the current date — the time of day carried by
`datetime.now()` never changes the whole-day difference `days_old`. -/
def fileChecks (read : FPath → Option (List Char)) (today : Int) (p : FPath) :
    List MErr × List MWarn :=
  match read p with
  | none => ([.readFail p], [])
  | some content =>
    let missing := missingFields content
    if missing ≠ [] then ([.missingMeta p missing], [])
    else
      let staleWs : List MWarn :=
        match luFind content with
        | some ds =>
          match parseDate ds with
          | some docOrd => if today - docOrd > 180 then [.stale p (today - docOrd)] else []
          | none => []
        | none => []
      let statusWs : List MWarn :=
        match findSRDD (fieldLit .status) content with
        | some g => if validStatuses.any (fun s => hasSub s g) then [] else [.badStatus p g]
        | none => []
      ([], staleWs ++ statusWs)

/-- `DOCS_DIRS` (line 32). -/
def docsDirs : List String := ["specs", "docs", "planning", ".github/docs"]

/-- `EXCLUDE_PATTERNS` (lines 35-40). -/
def excludePatterns : List String := ["README.md", "__pycache__", ".git", "node_modules"]

/-- `str(filepath)`: the components joined with `/`. -/
def pathStr (p : FPath) : List Char := (String.intercalate "/" p).toList

/-- Index of the last `.` in a file name (`str.rfind('.')`). -/
def lastDotIdx (name : List Char) : Option Nat :=
  (name.reverse.findIdx? (fun ch => ch = '.')).map (fun k => name.length - 1 - k)

/-- `pathlib.PurePath.suffix` of a file name: the part from the last dot,
empty when the dot is absent, leading, or trailing. -/
def pySuffix (name : List Char) : List Char :=
  match lastDotIdx name with
  | some i => if 0 < i ∧ i < name.length - 1 then name.drop i else []
  | none => []

/-- `should_check_file` (lines 46-60): markdown extension, a component in
`DOCS_DIRS`, and no `EXCLUDE_PATTERNS` entry occurring as a substring of
the path string. -/
def shouldCheck (p : FPath) : Bool :=
  pySuffix (p.getLast?.getD "").toList = ".md".toList &&
  p.any (fun part => part ∈ docsDirs) &&
  ¬ excludePatterns.any (fun pat => hasSub pat.toList (pathStr p))

/-- The observable outcome of `run` (lines 133-172). -/
structure MetaResult where
  exitCode : Nat
  errors : List MErr
  warnings : List MWarn
deriving DecidableEq, Repr

/-- `run` (lines 133-172): empty staged list or no in-scope files succeed
trivially; otherwise every in-scope file is validated and the exit code is
`1` exactly when an error was recorded. -/
def metaRun (read : FPath → Option (List Char)) (today : Int) (staged : List FPath) :
    MetaResult :=
  if staged = [] then ⟨0, [], []⟩
  else
    let docFiles := staged.filter shouldCheck
    if docFiles = [] then ⟨0, [], []⟩
    else
      let errs := docFiles.flatMap (fun p => (fileChecks read today p).1)
      let warns := docFiles.flatMap (fun p => (fileChecks read today p).2)
      ⟨if errs = [] then 0 else 1, errs, warns⟩

/-! ### Link validator (`validate-doc-links.py`) -/

/-- Error messages of the link validator: the sole `errors.append` site is
the broken file-path link (lines 91-94). -/
inductive LErr
  | fileNotFound (src : FPath) (target : List Char)
deriving DecidableEq, Repr

/-- Warning messages of the link validator. -/
inductive LWarn
  | readFail (p : FPath)
  | anchorMaybeMissing (src : FPath) (anchor : List Char)
  | anchorNotFound (src : FPath) (anchor : List Char) (target : List Char)
deriving DecidableEq, Repr

/-- Lookup in the `self.anchors` dictionary (most recent insertion first). -/
def aLookup : List (FPath × List (List Char)) → FPath → Option (List (List Char))
  | [], _ => none
  | (k2, v) :: rest, k => if k = k2 then some v else aLookup rest k

/-- Backtracking split for greedy `\s+` followed by a non-newline character:
the largest `j` with `1 ≤ j ≤ w` such that `r` has a character other than
`'\n'` at index `j`.  The caller passes the maximal whitespace-run length of
`r` as `w`. -/
def bestWsPlusSplit (r : List Char) : Nat → Option Nat
  | 0 => none
  | j + 1 =>
    match (r.drop (j + 1)).head? with
    | some ch => if ch ≠ '\n' then some (j + 1) else bestWsPlusSplit r j
    | none => bestWsPlusSplit r j

/-- `finditer` of the heading regex `^#+\s+(.+)$` with `re.MULTILINE`
(lines 44-46 and 104-106): the captured heading texts in order.  Scanning
proceeds from line start to line start; greedy `\s+` may cross newlines and
backtracks just enough for `.+` to take at least one non-newline character,
and `.+` then extends to the end of its line.  Every recursive call consumes
at least one character, so `content.length` fuel always suffices. -/
def headingScan (fuel : Nat) (s : List Char) : List (List Char) :=
  match fuel with
  | 0 => []
  | fuel + 1 =>
    match s with
    | [] => []
    | _ :: _ =>
      let hashes := s.takeWhile (fun ch => ch = '#')
      let nextLine := (s.dropWhile (fun ch => ch ≠ '\n')).drop 1
      if hashes = [] then headingScan fuel nextLine
      else
        let r := s.drop hashes.length
        match bestWsPlusSplit r (r.takeWhile pyIsSpace).length with
        | some j =>
          let captured := (r.drop j).takeWhile (fun ch => ch ≠ '\n')
          captured :: headingScan fuel ((r.drop (j + captured.length)).drop 1)
        | none => headingScan fuel nextLine

/-- All heading texts of a file's content. -/
def extractHeadings (content : List Char) : List (List Char) :=
  headingScan content.length content

/-- Scan for `\]\(` with the lazy `.*?` before it: a `]` not followed by `(`
is consumed by `.*?`, and `.` never matches a newline. -/
def closeBracketParen : List Char → Option (List Char)
  | ']' :: '(' :: rest => some rest
  | c :: rest => if c = '\n' then none else closeBracketParen rest
  | [] => none

/-- The lazy `(.*?)\)`: the characters up to the first `)`, failing at a
newline or the end of input. -/
def urlUpToParen : List Char → Option (List Char × List Char)
  | ')' :: rest => some ([], rest)
  | c :: rest =>
    if c = '\n' then none
    else
      match urlUpToParen rest with
      | some (u, r) => some (c :: u, r)
      | none => none
  | [] => none

/-- `finditer` of the link regex `\[.*?\]\((.*?)\)` (lines 30 and 57-59):
the captured target strings in order.  A failed match attempt advances the
scan by one character; a successful one resumes after the `)`. -/
def linkScan (fuel : Nat) (s : List Char) : List (List Char) :=
  match fuel with
  | 0 => []
  | fuel + 1 =>
    match s with
    | [] => []
    | '[' :: rest =>
      match closeBracketParen rest with
      | some afterParen =>
        match urlUpToParen afterParen with
        | some (url, rest2) => url :: linkScan fuel rest2
        | none => linkScan fuel rest
      | none => linkScan fuel rest
    | _ :: rest => linkScan fuel rest

/-- All link targets of a file's content. -/
def extractLinks (content : List Char) : List (List Char) :=
  linkScan content.length content

/-- The link validator's filesystem: the markdown files yielded by `rglob`
over the documentation directories in traversal order (`none` content for an
unreadable file), plus existence (`Path.exists`) and readability
(`Path.read_text`) of arbitrary resolved paths. -/
structure LinkFS where
  mdFiles : List (FPath × Option (List Char))
  fsMember : FPath → Bool
  readFile : FPath → Option (List Char)

/-- The accumulator state of a `LinkValidator` instance, plus a log
(`parses`) appending the file's path each time some file content is scanned
for headings. -/
structure LState where
  anchors : List (FPath × List (List Char))
  links : List (FPath × List Char)
  errors : List LErr
  warnings : List LWarn
  parses : List FPath
deriving DecidableEq, Repr

/-- `extract_links` (lines 28-59), one file: record the parse, cache the
anchor set only when it is non-empty (`if anchors:`, line 53), collect the
links. -/
def extractStep (st : LState) (entry : FPath × Option (List Char)) : LState :=
  match entry with
  | (p, none) => { st with warnings := st.warnings ++ [.readFail p] }
  | (p, some content) =>
    let ancs := (extractHeadings content).map deriveAnchor
    { st with
      anchors := if ancs ≠ [] then (p, ancs) :: st.anchors else st.anchors
      links := st.links ++ (extractLinks content).map (fun u => (p, u))
      parses := st.parses ++ [p] }

/-- `extract_links` over the whole documentation tree. -/
def extractPhase (fs : LinkFS) (st : LState) : LState :=
  fs.mdFiles.foldl extractStep st

/-- `str.split('/')`. -/
def splitSlash (s : List Char) : List String :=
  (s.foldr
    (fun c acc =>
      if c = '/' then [] :: acc
      else
        match acc with
        | seg :: rest => (c :: seg) :: rest
        | [] => [[c]])
    [[]]).map (fun seg => String.mk seg)

/-- Lexical normalization of `Path.resolve`: drop empty and `.` segments,
let `..` pop the previous segment. -/
def resolveSegs (segs : List String) : FPath :=
  segs.foldl
    (fun acc seg =>
      if seg = "" ∨ seg = "." then acc
      else if seg = ".." then acc.dropLast
      else acc ++ [seg]) []

/-- `(source_file.parent / file_path).resolve()` (line 87): an absolute
target replaces the source's directory, a relative one is joined onto it. -/
def resolveTarget (src : FPath) (filePart : List Char) : FPath :=
  if filePart.head? = some '/' then resolveSegs (splitSlash filePart)
  else resolveSegs (src.dropLast ++ splitSlash filePart)

/-- `validate_links` lines 98-113: when the target file is not yet in the
anchors dictionary and is a markdown file, read it and record its anchor
set (this time unconditionally, line 111); a failed read adds a warning and
caches nothing. -/
def ensureAnchors (fs : LinkFS) (st : LState) (target : FPath) : LState :=
  if (aLookup st.anchors target).isSome then st
  else if pySuffix (target.getLast?.getD "").toList = ".md".toList then
    match fs.readFile target with
    | some content =>
      { st with
        anchors := (target, (extractHeadings content).map deriveAnchor) :: st.anchors
        parses := st.parses ++ [target] }
    | none => { st with warnings := st.warnings ++ [.readFail target] }
  else st

/-- `validate_links` (lines 61-121), one link. -/
def checkLink (fs : LinkFS) (st : LState) (src : FPath) (url : List Char) : LState :=
  if leadsWith "http".toList url then st
  else
    match url with
    | '#' :: anch =>
      if anch ∈ (aLookup st.anchors src).getD [] then st
      else { st with warnings := st.warnings ++ [.anchorMaybeMissing src anch] }
    | _ =>
      let filePart := if url.any (fun ch => ch = '#') then url.takeWhile (fun ch => ch ≠ '#') else url
      let anch : Option (List Char) :=
        if url.any (fun ch => ch = '#') then some ((url.dropWhile (fun ch => ch ≠ '#')).drop 1)
        else none
      if filePart = [] then st
      else
        let target := resolveTarget src filePart
        if ¬ fs.fsMember target then { st with errors := st.errors ++ [.fileNotFound src filePart] }
        else
          match anch with
          | none => st
          | some a =>
            if a = [] then st
            else
              let st1 := ensureAnchors fs st target
              if a ∈ (aLookup st1.anchors target).getD [] then st1
              else { st1 with warnings := st1.warnings ++ [.anchorNotFound src a filePart] }

/-- `validate_links` over all extracted links. -/
def validatePhase (fs : LinkFS) (st : LState) : LState :=
  st.links.foldl (fun s entry => checkLink fs s entry.1 entry.2) st

/-- `main` (lines 152-162) followed by `report` (line 150): run both phases;
the exit code is `1` exactly when an error was recorded. -/
def linkRun (fs : LinkFS) : LState × Nat :=
  let st := validatePhase fs (extractPhase fs ⟨[], [], [], [], []⟩)
  (st, if st.errors = [] then 0 else 1)

/-- Number of occurrences of a path in the parse log. -/
def occCount (l : List FPath) (p : FPath) : Nat :=
  (l.filter (fun q => decide (q = p))).length

/-! ### Auxiliary definitions used only in the statements of the theorems -/

/-- The file a metadata error message is about. -/
def errPath : MErr → FPath
  | .readFail p => p
  | .missingMeta p _ => p

/-- Whether a metadata warning is the staleness warning. -/
def isStaleWarn : MWarn → Bool
  | .stale _ _ => true
  | .badStatus _ _ => false

/-- The scope filter exactly as claim C7 words it: markdown extension, a
path segment among the documentation directory names, and not excluded,
where exclusion by `README.md` applies exactly to files whose filename is
exactly `README.md` and the other exclusions cover version-control and
dependency directories (as path segments). -/
def claimedInScopeC7 (p : FPath) : Bool :=
  pySuffix (p.getLast?.getD "").toList = ".md".toList &&
  p.any (fun part => part ∈ docsDirs) &&
  ¬ (p.getLast?.getD "" = "README.md" ||
     p.any (fun part => part = "__pycache__" || part = ".git" || part = "node_modules"))

/-- The scope filter as the amended claim C7 words it: the exclusion
patterns are matched as substrings of the whole path string. -/
def amendedInScopeC7 (p : FPath) : Prop :=
  pySuffix (p.getLast?.getD "").toList = ".md".toList ∧
  (∃ part ∈ p, part ∈ docsDirs) ∧
  ∀ pat ∈ excludePatterns, hasSub pat.toList (pathStr p) = false

/-- The paths of the readable documentation-tree files, in traversal
order. -/
def readablePaths (l : List (FPath × Option (List Char))) : List FPath :=
  l.filterMap (fun e =>
    match e.2 with
    | some _ => some e.1
    | none => none)

/-- A two-file documentation tree where `b.md` has no headings and is the
target of a cross-file anchor link from `a.md`: because `extract_links`
caches only non-empty anchor sets, `validate_links` re-reads and re-parses
`b.md`. -/
def noHeadingFS : LinkFS where
  mdFiles :=
    [(["r", "docs", "a.md"], some "# Top\n[x](b.md#sec)\n".toList),
     (["r", "docs", "b.md"], some "plain text, no headings".toList)]
  fsMember := fun p =>
    decide (p = ["r", "docs", "a.md"] ∨ p = ["r", "docs", "b.md"])
  readFile := fun p =>
    if p = ["r", "docs", "b.md"] then some "plain text, no headings".toList else none

/-- A one-file documentation tree whose only link points to a file that
does not exist anywhere on disk. -/
def brokenLinkFS : LinkFS where
  mdFiles := [(["r", "docs", "a.md"], some "[x](missing.md)".toList)]
  fsMember := fun _ => false
  readFile := fun _ => none

/-! ## Helper lemmas -/

theorem toLower_idem (c : Char) : c.toLower.toLower = c.toLower := by
  unfold Char.toLower
  by_cases h : c.toNat ≥ 65 ∧ c.toNat ≤ 90
  · simp only [h, if_pos]
    obtain ⟨h1, h2⟩ := h
    interval_cases h3 : c.toNat <;> simp only [and_self, if_true] <;> decide
  · simp [h]

theorem deriveAnchor_mem_fixed (t : List Char) (c : Char) (hc : c ∈ deriveAnchor t) :
    Char.toLower c = c ∧ (if c = ' ' then '-' else c) = c ∧
      (if c = '&' then ['a', 'n', 'd'] else [c]) = [c] ∧ (isWordChar c || c = '-') = true := by
  unfold deriveAnchor at hc
  rw [List.mem_filter] at hc
  obtain ⟨hmem, hpred⟩ := hc
  rw [List.mem_flatMap] at hmem
  obtain ⟨b, hb, hcb⟩ := hmem
  rw [List.mem_map] at hb
  obtain ⟨a, ha, hab⟩ := hb
  rw [List.mem_map] at ha
  obtain ⟨a0, _, ha0⟩ := ha
  by_cases hamp : b = '&'
  · rw [hamp] at hcb
    simp only [if_pos rfl] at hcb
    have hand : ∀ x ∈ (['a', 'n', 'd'] : List Char),
        Char.toLower x = x ∧ (if x = ' ' then '-' else x) = x ∧
          (if x = '&' then ['a', 'n', 'd'] else [x]) = [x] ∧ (isWordChar x || x = '-') = true := by
      decide
    exact hand c hcb
  · rw [if_neg hamp] at hcb
    have hcbeq : c = b := List.mem_singleton.mp hcb
    subst hcbeq
    subst ha0
    by_cases hsp : Char.toLower a0 = ' '
    · rw [hsp] at hab
      simp only [if_pos rfl] at hab
      subst hab
      exact ⟨rfl, rfl, rfl, rfl⟩
    · rw [if_neg hsp] at hab
      subst hab
      refine ⟨toLower_idem a0, ?_, ?_, hpred⟩
      · rw [if_neg hsp]
      · rw [if_neg hamp]

theorem deriveAnchor_fixed_list (l : List Char)
    (h : ∀ c ∈ l, Char.toLower c = c ∧ (if c = ' ' then '-' else c) = c ∧
      (if c = '&' then ['a', 'n', 'd'] else [c]) = [c] ∧ (isWordChar c || c = '-') = true) :
    deriveAnchor l = l := by
  induction l with
  | nil => rfl
  | cons a as ih =>
    have ha := h a (List.mem_cons_self a as)
    have hrec := ih (fun c hc => h c (List.mem_cons_of_mem a hc))
    unfold deriveAnchor at hrec ⊢
    simp only [List.map_cons, List.flatMap_cons, ha.1, ha.2.1, ha.2.2.1]
    rw [List.singleton_append]
    simp only [List.map_map] at hrec
    simp [List.filter_cons, ha.2.2.2, hrec]

/-! ## Claims -/

/-- **C5.** Anchor derivation is a deterministic and idempotent function of
the heading text: it lower-cases the text, replaces spaces with hyphens,
replaces ampersands with the literal word `and`, then removes every
character outside word-characters and hyphens; applying the derivation to
its own output yields the same string, and in particular the heading text
`Getting Started & FAQ` yields `getting-started-and-faq`. -/
theorem c5_anchor_derivation_idempotent :
    (∀ text : List Char, deriveAnchor (deriveAnchor text) = deriveAnchor text) ∧
    deriveAnchor "Getting Started & FAQ".toList = "getting-started-and-faq".toList := by
  refine ⟨fun text => deriveAnchor_fixed_list _ (fun c hc => deriveAnchor_mem_fixed text c hc), ?_⟩
  decide

/-- **C10.** For every link whose target string is empty (markdown syntax
`[text]()`), the link validator records neither an error nor a warning and
performs no filesystem existence check: the whole validator state is left
unchanged, whatever the filesystem contains. -/
theorem c10_empty_target_silently_accepted (fs : LinkFS) (st : LState) (src : FPath) :
    checkLink fs st src [] = st := rfl

/-- **C9.** If any required metadata field is missing from a file, the
metadata validator emits no staleness warning and no status-vocabulary
warning for that file (whatever its `Last Updated` and `Status` values):
the missing-field error preempts all warning checks for that file. -/
theorem c9_missing_field_preempts_warnings (read : FPath → Option (List Char)) (today : Int)
    (p : FPath) (content : List Char) (hread : read p = some content)
    (hmiss : missingFields content ≠ []) :
    fileChecks read today p = ([.missingMeta p (missingFields content)], []) := by
  unfold fileChecks
  rw [hread]
  simp [hmiss]

/-- Witness for C9: a file whose `Last Updated` is far in the past and whose
`Status` is outside the vocabulary, but whose `Owner` field is missing,
produces the missing-field error and no warnings at all. -/
theorem c9_witness :
    fileChecks
        (fun _ => some "**Last Updated**: 2020-01-01\n**Status**: Draft\n**Document Type**: Spec\n".toList)
        740000 ["docs", "a.md"] =
      ([.missingMeta ["docs", "a.md"] [Field.owner]], []) := by
  have h := c9_missing_field_preempts_warnings
    (fun _ => some "**Last Updated**: 2020-01-01\n**Status**: Draft\n**Document Type**: Spec\n".toList)
    740000 ["docs", "a.md"]
    "**Last Updated**: 2020-01-01\n**Status**: Draft\n**Document Type**: Spec\n".toList
    rfl (by decide)
  rw [h]
  decide

/-- **C2.** The metadata validator's run returns a non-zero exit code if and
only if at least one error was recorded; warnings alone never cause a
non-zero exit; and when the staged-file list is empty, or contains no
in-scope documentation files, the run returns `0` with no errors or
warnings recorded. -/
theorem c2_meta_run_exit_contract (read : FPath → Option (List Char)) (today : Int)
    (staged : List FPath) :
    ((metaRun read today staged).exitCode ≠ 0 ↔ (metaRun read today staged).errors ≠ []) ∧
    (staged = [] → metaRun read today staged = ⟨0, [], []⟩) ∧
    (staged.filter shouldCheck = [] → metaRun read today staged = ⟨0, [], []⟩) := by
  unfold metaRun
  by_cases h1 : staged = []
  · simp [h1]
  · by_cases h2 : staged.filter shouldCheck = []
    · simp [h1, h2]
    · by_cases h3 :
        (staged.filter shouldCheck).flatMap (fun p => (fileChecks read today p).1) = [] <;>
      simp [h1, h2, h3]

/-- Witness for C2: an empty staged list and a staged list with no in-scope
files both yield exit `0` with nothing recorded. -/
theorem c2_witness :
    metaRun (fun _ => none) 0 [] = ⟨0, [], []⟩ ∧
    metaRun (fun _ => none) 0 [["notes.txt"], ["src", "code.py"]] = ⟨0, [], []⟩ := by
  exact ⟨(c2_meta_run_exit_contract (fun _ => none) 0 []).2.1 rfl,
    (c2_meta_run_exit_contract (fun _ => none) 0 [["notes.txt"], ["src", "code.py"]]).2.2 (by decide)⟩

theorem metaRun_exit_eq (read : FPath → Option (List Char)) (today : Int)
    (staged : List FPath) :
    (metaRun read today staged).exitCode =
      if (metaRun read today staged).errors = [] then 0 else 1 := by
  unfold metaRun
  by_cases h1 : staged = []
  · simp [h1]
  · by_cases h2 : staged.filter shouldCheck = []
    · simp [h1, h2]
    · by_cases h3 :
        (staged.filter shouldCheck).flatMap (fun p => (fileChecks read today p).1) = [] <;>
      simp [h1, h2, h3]

theorem fileChecks_of_valid (read : FPath → Option (List Char)) (today : Int)
    (p : FPath) (content : List Char) (hread : read p = some content)
    (hmiss : missingFields content = []) (ds : List Char) (hds : luFind content = some ds)
    (docOrd : Int) (hparse : parseDate ds = some docOrd) :
    ∃ statusWs : List MWarn, (statusWs = [] ∨ ∃ g, statusWs = [MWarn.badStatus p g]) ∧
      fileChecks read today p =
        ([], (if today - docOrd > 180 then [MWarn.stale p (today - docOrd)] else []) ++ statusWs) := by
  unfold fileChecks
  rw [hread]
  simp only [hmiss, hds, hparse]
  cases hg : findSRDD (fieldLit .status) content with
  | none => exact ⟨[], Or.inl rfl, by simp⟩
  | some g =>
    by_cases hv : validStatuses.any (fun s => hasSub s g) = true
    · exact ⟨[], Or.inl rfl, by simp [hv]⟩
    · exact ⟨[MWarn.badStatus p g], Or.inr ⟨g, rfl⟩, by simp [hv]⟩

/-- **C6.** For a file passing all four field checks whose `Last Updated`
value parses as a valid ISO date: if the document's age in days relative to
the current date is 180 or less, no staleness warning is emitted; if the
age is strictly greater than 180 days, exactly one non-blocking staleness
warning is emitted for that file; and the staleness warning never affects
the pass/fail result, which is a function of the errors alone. -/
theorem c6_staleness_warning (read : FPath → Option (List Char)) (today : Int)
    (p : FPath) (content : List Char) (hread : read p = some content)
    (hmiss : missingFields content = []) (ds : List Char) (hds : luFind content = some ds)
    (docOrd : Int) (hparse : parseDate ds = some docOrd) :
    (today - docOrd ≤ 180 → (fileChecks read today p).2.filter isStaleWarn = []) ∧
    (today - docOrd > 180 →
      (fileChecks read today p).2.filter isStaleWarn = [MWarn.stale p (today - docOrd)]) ∧
    (fileChecks read today p).1 = [] ∧
    (∀ staged, (metaRun read today staged).exitCode =
      if (metaRun read today staged).errors = [] then 0 else 1) := by
  obtain ⟨statusWs, hsw, hfc⟩ :=
    fileChecks_of_valid read today p content hread hmiss ds hds docOrd hparse
  have hswf : statusWs.filter isStaleWarn = [] := by
    rcases hsw with rfl | ⟨g, rfl⟩ <;> simp [isStaleWarn]
  refine ⟨?_, ?_, by rw [hfc], fun staged => metaRun_exit_eq read today staged⟩
  · intro hle
    rw [hfc]
    simp only [List.filter_append, hswf, List.append_nil]
    rw [if_neg (by omega)]
    rfl
  · intro hgt
    rw [hfc]
    simp only [List.filter_append, hswf, List.append_nil]
    rw [if_pos hgt]
    simp [isStaleWarn]

/-- Witness for C6: with `Last Updated: 2024-01-01` (day number 738886), a
current date 181 days later yields exactly the staleness warning, and a
current date 180 days later yields none. -/
theorem c6_witness :
    (fileChecks
        (fun _ => some "**Last Updated**: 2024-01-01\n**Status**: Complete\n**Owner**: Core\n**Document Type**: Guide\n".toList)
        739067 ["docs", "g.md"]).2.filter isStaleWarn = [MWarn.stale ["docs", "g.md"] 181] ∧
    (fileChecks
        (fun _ => some "**Last Updated**: 2024-01-01\n**Status**: Complete\n**Owner**: Core\n**Document Type**: Guide\n".toList)
        739066 ["docs", "g.md"]).2.filter isStaleWarn = [] := by
  constructor
  · have h := (c6_staleness_warning
      (fun _ => some "**Last Updated**: 2024-01-01\n**Status**: Complete\n**Owner**: Core\n**Document Type**: Guide\n".toList)
      739067 ["docs", "g.md"] _ rfl (by decide) "2024-01-01".toList (by decide)
      738886 (by decide)).2.1 (by decide)
    rw [h]
    decide
  · exact (c6_staleness_warning
      (fun _ => some "**Last Updated**: 2024-01-01\n**Status**: Complete\n**Owner**: Core\n**Document Type**: Guide\n".toList)
      739066 ["docs", "g.md"] _ rfl (by decide) "2024-01-01".toList (by decide)
      738886 (by decide)).1 (by decide)

/-- Counterexample to C7 as stated: `docs/MYREADME.md` satisfies every
acceptance condition of the claim (markdown extension, a `docs` segment,
filename different from `README.md`, no version-control or dependency
directory), yet `should_check_file` rejects it, because the exclusion
patterns are matched as substrings of the whole path string and
`README.md` occurs inside `MYREADME.md`. -/
theorem c7_counterexample :
    claimedInScopeC7 ["docs", "MYREADME.md"] = true ∧
    shouldCheck ["docs", "MYREADME.md"] = false := by
  decide

/-- **C7 (amended).** The metadata validator's scope filter accepts a path
if and only if: its extension is `.md`, at least one of its path segments
is one of the configured documentation directory names, and no configured
exclusion pattern occurs as a substring of the full path string (so the
`README.md` pattern excludes every path containing `README.md` anywhere in
its text, not only files named exactly `README.md`). -/
theorem c7_amended_scope_filter (p : FPath) :
    shouldCheck p = true ↔ amendedInScopeC7 p := by
  unfold shouldCheck amendedInScopeC7
  simp [List.any_eq_true, Bool.not_eq_true, not_exists, not_or]
  tauto

theorem fileChecks_errPath (read : FPath → Option (List Char)) (today : Int) (q : FPath)
    (e : MErr) (he : e ∈ (fileChecks read today q).1) : errPath e = q := by
  unfold fileChecks at he
  cases hr : read q with
  | none =>
    rw [hr] at he
    simp only [List.mem_singleton] at he
    subst he
    rfl
  | some content =>
    rw [hr] at he
    dsimp only at he
    by_cases hm : missingFields content ≠ []
    · rw [if_pos hm] at he
      simp only [List.mem_singleton] at he
      subst he
      rfl
    · rw [if_neg hm] at he
      simp only [List.not_mem_nil] at he

theorem filter_flatMap_errors_not_mem (read : FPath → Option (List Char)) (today : Int)
    (l : List FPath) (p : FPath) (hp : p ∉ l) :
    (l.flatMap (fun q => (fileChecks read today q).1)).filter
      (fun e => decide (errPath e = p)) = [] := by
  induction l with
  | nil => rfl
  | cons q rest ih =>
    rw [List.flatMap_cons, List.filter_append,
      ih (fun h => hp (List.mem_cons_of_mem q h))]
    have hqp : q ≠ p := fun h => hp (h ▸ List.mem_cons_self q rest)
    have h1 : (fileChecks read today q).1.filter (fun e => decide (errPath e = p)) = [] := by
      apply List.filter_eq_nil_iff.mpr
      intro e he
      simp only [decide_eq_true_eq]
      rw [fileChecks_errPath read today q e he]
      exact hqp
    rw [h1, List.nil_append]

theorem filter_flatMap_errors_mem (read : FPath → Option (List Char)) (today : Int)
    (l : List FPath) (p : FPath) (hnd : l.Nodup) (hp : p ∈ l) :
    (l.flatMap (fun q => (fileChecks read today q).1)).filter
      (fun e => decide (errPath e = p)) = (fileChecks read today p).1 := by
  induction l with
  | nil => cases hp
  | cons q rest ih =>
    rw [List.flatMap_cons, List.filter_append]
    rcases List.mem_cons.mp hp with heq | hmem
    · subst heq
      have hnotin : p ∉ rest := (List.nodup_cons.mp hnd).1
      rw [filter_flatMap_errors_not_mem read today rest p hnotin, List.append_nil]
      apply List.filter_eq_self.mpr
      intro e he
      simp only [decide_eq_true_eq]
      exact fileChecks_errPath read today p e he
    · have hqp : q ≠ p := by
        rintro rfl
        exact (List.nodup_cons.mp hnd).1 hmem
      have h1 : (fileChecks read today q).1.filter (fun e => decide (errPath e = p)) = [] := by
        apply List.filter_eq_nil_iff.mpr
        intro e he
        simp only [decide_eq_true_eq]
        rw [fileChecks_errPath read today q e he]
        exact hqp
      rw [h1, List.nil_append, ih (List.nodup_cons.mp hnd).2 hmem]

/-- **C1.** For every in-scope documentation file missing at least one of
the four required metadata fields, the metadata validator records exactly
one error for that file, whose message names exactly the missing field
names (all of them, in declaration order), and the run exits non-zero.
The staged list is duplicate-free, as `git diff --cached --name-only`
yields each path once. -/
theorem c1_missing_fields_single_error (read : FPath → Option (List Char)) (today : Int)
    (staged : List FPath) (p : FPath) (content : List Char)
    (hnd : staged.Nodup) (hp : p ∈ staged) (hsc : shouldCheck p = true)
    (hread : read p = some content) (hmiss : missingFields content ≠ []) :
    (metaRun read today staged).errors.filter (fun e => decide (errPath e = p)) =
      [MErr.missingMeta p (missingFields content)] ∧
    (metaRun read today staged).exitCode = 1 := by
  have hpd : p ∈ staged.filter shouldCheck := List.mem_filter.mpr ⟨hp, hsc⟩
  have hst : staged ≠ [] := by
    rintro rfl
    cases hp
  have hdf : staged.filter shouldCheck ≠ [] := by
    intro h
    rw [h] at hpd
    cases hpd
  have hfc : (fileChecks read today p).1 = [MErr.missingMeta p (missingFields content)] := by
    unfold fileChecks
    rw [hread]
    simp [hmiss]
  have hmem : MErr.missingMeta p (missingFields content) ∈
      (staged.filter shouldCheck).flatMap (fun q => (fileChecks read today q).1) :=
    List.mem_flatMap.mpr ⟨p, hpd, by rw [hfc]; exact List.mem_singleton_self _⟩
  have hne : (staged.filter shouldCheck).flatMap (fun q => (fileChecks read today q).1) ≠ [] := by
    intro h
    rw [h] at hmem
    cases hmem
  unfold metaRun
  rw [if_neg hst, if_neg hdf]
  constructor
  · rw [filter_flatMap_errors_mem read today _ p (hnd.filter _) hpd, hfc]
  · simp [hne]

/-- Witness for C1: staging one out-of-scope file and one docs file missing
its `Status` field records exactly the one error naming `Status` and exits
`1`. -/
theorem c1_witness :
    (metaRun (fun _ => some "**Last Updated**: 2024-01-01\n**Owner**: X\n**Document Type**: Spec\n".toList)
        0 [["notes.txt"], ["docs", "b.md"]]).errors.filter
      (fun e => decide (errPath e = ["docs", "b.md"])) =
      [MErr.missingMeta ["docs", "b.md"] [Field.status]] ∧
    (metaRun (fun _ => some "**Last Updated**: 2024-01-01\n**Owner**: X\n**Document Type**: Spec\n".toList)
        0 [["notes.txt"], ["docs", "b.md"]]).exitCode = 1 := by
  have h := c1_missing_fields_single_error
    (fun _ => some "**Last Updated**: 2024-01-01\n**Owner**: X\n**Document Type**: Spec\n".toList)
    0 [["notes.txt"], ["docs", "b.md"]] ["docs", "b.md"]
    "**Last Updated**: 2024-01-01\n**Owner**: X\n**Document Type**: Spec\n".toList
    (by decide) (by decide) (by decide) rfl (by decide)
  refine ⟨?_, h.2⟩
  rw [h.1]
  decide

/-- **C4.** The link validator's run exits non-zero if and only if at least
one broken file-path link error was recorded; every recorded error is a
broken file-path link (the anchor-related issues all go to the warnings
list), so anchor issues never by themselves cause a non-zero exit. -/
theorem c4_link_exit_iff_broken_link (fs : LinkFS) :
    ((linkRun fs).2 ≠ 0 ↔ (linkRun fs).1.errors ≠ []) ∧
    (∀ e, e ∈ (linkRun fs).1.errors → ∃ src target, e = LErr.fileNotFound src target) := by
  constructor
  · unfold linkRun
    by_cases h : (validatePhase fs (extractPhase fs ⟨[], [], [], [], []⟩)).errors = [] <;>
      simp [h]
  · intro e _
    cases e with
    | fileNotFound s t => exact ⟨s, t, rfl⟩

/-- Witness for C4: a documentation tree with one broken link exits
non-zero, and its recorded error is the broken file-path link. -/
theorem c4_witness :
    (linkRun brokenLinkFS).2 ≠ 0 ∧
    (∃ src target,
      LErr.fileNotFound ["r", "docs", "a.md"] "missing.md".toList =
        LErr.fileNotFound src target) := by
  refine ⟨(c4_link_exit_iff_broken_link brokenLinkFS).1.mpr (by decide), ?_⟩
  exact (c4_link_exit_iff_broken_link brokenLinkFS).2 _ (by decide)

theorem takeWhile_of_no_hash (url : List Char) (h : url.any (fun ch => ch = '#') = false) :
    url.takeWhile (fun ch => ch ≠ '#') = url := by
  induction url with
  | nil => rfl
  | cons c us ih =>
    rw [List.any_cons, Bool.or_eq_false_iff] at h
    have hc : ¬ c = '#' := of_decide_eq_false h.1
    rw [List.takeWhile_cons, if_pos (by simpa using hc), ih h.2]

/-- **C3.** For every extracted link: if the target starts with `http` it is
never validated (the validator state is unchanged); if the target is a
relative path whose resolution against the source file's directory does not
exist on disk, an error is recorded; if the resolved target exists and the
link carries no anchor, neither an error nor a warning is recorded for that
link. -/
theorem c3_link_classification (fs : LinkFS) (st : LState) (src : FPath) (url : List Char) :
    (leadsWith "http".toList url = true → checkLink fs st src url = st) ∧
    (leadsWith "http".toList url = false →
      url.head? ≠ some '#' →
      url.takeWhile (fun ch => ch ≠ '#') ≠ [] →
      (url.takeWhile (fun ch => ch ≠ '#')).head? ≠ some '/' →
      fs.fsMember
          (resolveSegs (src.dropLast ++ splitSlash (url.takeWhile (fun ch => ch ≠ '#')))) =
        false →
      (checkLink fs st src url).errors =
        st.errors ++ [LErr.fileNotFound src (url.takeWhile (fun ch => ch ≠ '#'))]) ∧
    (leadsWith "http".toList url = false →
      url ≠ [] →
      url.any (fun ch => ch = '#') = false →
      fs.fsMember (resolveTarget src url) = true →
      (checkLink fs st src url).errors = st.errors ∧
        (checkLink fs st src url).warnings = st.warnings) := by
  refine ⟨?_, ?_, ?_⟩
  · intro h
    unfold checkLink
    rw [if_pos h]
  · intro hhttp hhash hfp hrel hnex
    cases url with
    | nil => exact absurd rfl hfp
    | cons c us =>
      have hc : c ≠ '#' := by
        intro h
        exact hhash (by rw [h]; rfl)
      unfold checkLink
      rw [if_neg (by rw [hhttp]; simp)]
      have hfp2 : (c :: us).takeWhile (fun ch => ch ≠ '#') =
          if (c :: us).any (fun ch => ch = '#') then (c :: us).takeWhile (fun ch => ch ≠ '#')
          else (c :: us) := by
        by_cases hany : (c :: us).any (fun ch => ch = '#') = true
        · rw [if_pos hany]
        · rw [if_neg hany,
            takeWhile_of_no_hash _ (by simp only [Bool.not_eq_true] at hany; exact hany)]
      split
      · rename_i anch heq
        exact absurd heq (by simp [hc])
      · dsimp only
        rw [← hfp2, if_neg hfp]
        unfold resolveTarget
        rw [if_neg hrel]
        rw [if_pos (by rw [hnex]; simp)]
  · intro hhttp hne hany hex
    cases url with
    | nil => exact absurd rfl hne
    | cons c us =>
      have hc : c ≠ '#' := by
        intro h
        rw [h] at hany
        simp at hany
      unfold checkLink
      rw [if_neg (by rw [hhttp]; simp)]
      split
      · rename_i anch heq
        exact absurd heq (by simp [hc])
      · dsimp only
        have hany2 : ¬ ((c :: us).any fun ch => decide (ch = '#')) = true := by
          rw [hany]
          simp
        simp only [if_neg hany2]
        rw [if_neg hne]
        rw [if_neg (by rw [hex]; simp)]
        exact ⟨rfl, rfl⟩

/-- Witness for C3: an external link leaves the state unchanged, a broken
relative link records the broken-link error, and a link to an existing file
with no anchor records nothing. -/
theorem c3_witness :
    checkLink brokenLinkFS ⟨[], [], [], [], []⟩ ["r", "docs", "a.md"]
        "https://example.com".toList = ⟨[], [], [], [], []⟩ ∧
    (checkLink brokenLinkFS ⟨[], [], [], [], []⟩ ["r", "docs", "a.md"]
        "missing.md".toList).errors =
      [LErr.fileNotFound ["r", "docs", "a.md"] "missing.md".toList] ∧
    (checkLink noHeadingFS ⟨[], [], [], [], []⟩ ["r", "docs", "a.md"]
        "b.md".toList).errors = [] ∧
    (checkLink noHeadingFS ⟨[], [], [], [], []⟩ ["r", "docs", "a.md"]
        "b.md".toList).warnings = [] := by
  refine ⟨?_, ?_, ?_⟩
  · exact (c3_link_classification brokenLinkFS ⟨[], [], [], [], []⟩ ["r", "docs", "a.md"]
      "https://example.com".toList).1 (by decide)
  · have h := (c3_link_classification brokenLinkFS ⟨[], [], [], [], []⟩ ["r", "docs", "a.md"]
      "missing.md".toList).2.1 (by decide) (by decide) (by decide) (by decide) (by decide)
    rw [h]
    decide
  · exact (c3_link_classification noHeadingFS ⟨[], [], [], [], []⟩ ["r", "docs", "a.md"]
      "b.md".toList).2.2 (by decide) (by decide) (by decide) (by decide)

theorem aLookup_cons (k : FPath) (v : List (List Char)) (m : List (FPath × List (List Char)))
    (p : FPath) : aLookup ((k, v) :: m) p = if p = k then some v else aLookup m p := rfl

theorem occCount_append (a b : List FPath) (p : FPath) :
    occCount (a ++ b) p = occCount a p + occCount b p := by
  simp [occCount, List.filter_append]

theorem occCount_cons (q : FPath) (l : List FPath) (p : FPath) :
    occCount (q :: l) p = (if q = p then 1 else 0) + occCount l p := by
  simp only [occCount, List.filter_cons]
  by_cases h : q = p
  · rw [if_pos (by simp [h]), if_pos h]
    simp [Nat.add_comm]
  · rw [if_neg (by simp [h]), if_neg h]
    simp

theorem occCount_eq_zero_of_not_mem (l : List FPath) (p : FPath) (h : p ∉ l) :
    occCount l p = 0 := by
  induction l with
  | nil => rfl
  | cons q rest ih =>
    rw [occCount_cons,
      if_neg (by intro hq; subst hq; exact h (List.mem_cons_self q rest)),
      ih (fun hm => h (List.mem_cons_of_mem q hm))]

theorem occCount_le_one_of_nodup (l : List FPath) (hnd : l.Nodup) (p : FPath) :
    occCount l p ≤ 1 := by
  induction l with
  | nil => simp [occCount]
  | cons q rest ih =>
    rcases List.nodup_cons.mp hnd with ⟨hq, hrest⟩
    rw [occCount_cons]
    by_cases h : q = p
    · subst h
      rw [if_pos rfl, occCount_eq_zero_of_not_mem rest q hq]
    · rw [if_neg h]
      simpa using ih hrest

theorem readablePaths_sublist (l : List (FPath × Option (List Char))) :
    (readablePaths l).Sublist (l.map Prod.fst) := by
  induction l with
  | nil => simp [readablePaths]
  | cons e rest ih =>
    rcases e with ⟨p, c?⟩
    cases c? with
    | none =>
      simp only [readablePaths, List.filterMap_cons, List.map_cons]
      exact List.Sublist.cons _ ih
    | some content =>
      simp only [readablePaths, List.filterMap_cons, List.map_cons]
      exact List.Sublist.cons₂ _ ih

theorem extractFold_parses (files : List (FPath × Option (List Char))) (st : LState) :
    (files.foldl extractStep st).parses = st.parses ++ readablePaths files := by
  induction files generalizing st with
  | nil => simp [readablePaths]
  | cons e rest ih =>
    rcases e with ⟨p, c?⟩
    rw [List.foldl_cons, ih]
    cases c? with
    | none => simp [extractStep, readablePaths, List.filterMap_cons]
    | some content => simp [extractStep, readablePaths, List.filterMap_cons]

theorem extractStep_anchors_mono (st : LState) (e : FPath × Option (List Char)) (p : FPath)
    (h : (aLookup st.anchors p).isSome = true) :
    (aLookup (extractStep st e).anchors p).isSome = true := by
  rcases e with ⟨q, c?⟩
  cases c? with
  | none => exact h
  | some content =>
    dsimp only [extractStep]
    split
    · rw [aLookup_cons]
      by_cases hpq : p = q
      · rw [if_pos hpq]
        rfl
      · rw [if_neg hpq]
        exact h
    · exact h

theorem extractFold_anchors_mono (files : List (FPath × Option (List Char))) (st : LState)
    (p : FPath) (h : (aLookup st.anchors p).isSome = true) :
    (aLookup (files.foldl extractStep st).anchors p).isSome = true := by
  induction files generalizing st with
  | nil => exact h
  | cons e rest ih => exact ih _ (extractStep_anchors_mono st e p h)

theorem extractFold_cached (files : List (FPath × Option (List Char))) (st : LState)
    (p : FPath) (content : List Char) (hmem : (p, some content) ∈ files)
    (hanc : (extractHeadings content).map deriveAnchor ≠ []) :
    (aLookup (files.foldl extractStep st).anchors p).isSome = true := by
  induction files generalizing st with
  | nil => cases hmem
  | cons e rest ih =>
    rcases List.mem_cons.mp hmem with heq | hmem2
    · rw [List.foldl_cons]
      apply extractFold_anchors_mono
      rw [← heq]
      dsimp only [extractStep]
      rw [if_pos hanc, aLookup_cons, if_pos rfl]
      rfl
    · rw [List.foldl_cons]
      exact ih _ hmem2

theorem ensureAnchors_shape (fs : LinkFS) (st : LState) (target : FPath) :
    ((ensureAnchors fs st target).parses = st.parses ∧
      (ensureAnchors fs st target).anchors = st.anchors) ∨
    (∃ ancs, aLookup st.anchors target = none ∧
      (ensureAnchors fs st target).parses = st.parses ++ [target] ∧
      (ensureAnchors fs st target).anchors = (target, ancs) :: st.anchors) := by
  unfold ensureAnchors
  split
  · exact Or.inl ⟨rfl, rfl⟩
  · rename_i hnone
    split
    · split
      · exact Or.inr ⟨_, Option.not_isSome_iff_eq_none.mp hnone, rfl, rfl⟩
      · exact Or.inl ⟨rfl, rfl⟩
    · exact Or.inl ⟨rfl, rfl⟩

theorem checkLink_step_shape (fs : LinkFS) (st : LState) (src : FPath) (url : List Char) :
    ((checkLink fs st src url).parses = st.parses ∧
      (checkLink fs st src url).anchors = st.anchors) ∨
    (∃ t ancs, aLookup st.anchors t = none ∧
      (checkLink fs st src url).parses = st.parses ++ [t] ∧
      (checkLink fs st src url).anchors = (t, ancs) :: st.anchors) := by
  unfold checkLink
  split
  · exact Or.inl ⟨rfl, rfl⟩
  split
  · split
    · exact Or.inl ⟨rfl, rfl⟩
    · exact Or.inl ⟨rfl, rfl⟩
  · dsimp only
    repeat' split
    all_goals try exact Or.inl ⟨rfl, rfl⟩
    all_goals try (exfalso; simp_all; done)
    all_goals
      rcases ensureAnchors_shape fs st
          (resolveTarget src (url.takeWhile (fun ch => decide (ch ≠ '#')))) with
        ⟨hp, ha⟩ | ⟨ancs, h1, h2, h3⟩
    all_goals try exact Or.inl ⟨hp, ha⟩
    all_goals exact Or.inr ⟨_, ancs, h1, h2, h3⟩

theorem occCount_nil (p : FPath) : occCount [] p = 0 := rfl

theorem validateFold_parses_bound (fs : LinkFS) (links : List (FPath × List Char))
    (st : LState) (p : FPath) :
    occCount (links.foldl (fun s entry => checkLink fs s entry.1 entry.2) st).parses p ≤
      occCount st.parses p + (if (aLookup st.anchors p).isSome = true then 0 else 1) := by
  induction links generalizing st with
  | nil =>
    simp only [List.foldl_nil]
    split
    · simp
    · exact Nat.le_add_right _ 1
  | cons l rest ih =>
    rw [List.foldl_cons]
    have hthis := ih (checkLink fs st l.1 l.2)
    rcases checkLink_step_shape fs st l.1 l.2 with ⟨hp, ha⟩ | ⟨t, ancs, h1, h2, h3⟩
    · rw [hp, ha] at hthis
      exact hthis
    · rw [h2, h3, occCount_append, aLookup_cons] at hthis
      by_cases hpt : p = t
      · subst hpt
        have hocc1 : occCount [p] p = 1 := by
          rw [occCount_cons, if_pos rfl, occCount_nil]
        have hsome : (if p = p then some ancs else aLookup st.anchors p).isSome = true := by
          rw [if_pos rfl]
          rfl
        rw [hocc1, if_pos hsome] at hthis
        rw [h1]
        simp only [Option.isSome_none, Bool.false_eq_true, if_false]
        omega
      · have hocc0 : occCount [t] p = 0 := by
          rw [occCount_cons, if_neg (fun h => hpt h.symm), occCount_nil]
        rw [hocc0, if_neg hpt] at hthis
        omega

/-- Counterexample to C8 as stated: in `noHeadingFS` the file `b.md` of the
documentation tree has no headings, so `extract_links` computes its (empty)
anchor set but does not cache it, and `validate_links` re-reads and
re-parses `b.md` when checking the anchor link from `a.md`: its content is
scanned for headings twice in one run, not at most once. -/
theorem c8_counterexample :
    occCount (linkRun noHeadingFS).1.parses ["r", "docs", "b.md"] = 2 := by
  decide

/-- **C8 (amended).** For every markdown file, the link validator scans a
file's content for headings at most twice per run — once during extraction
and at most once more during validation — and at most once whenever the
file's computed anchor set is non-empty, because only non-empty anchor sets
are cached during extraction while validation caches unconditionally.  The
documentation-tree paths are distinct, as `rglob` yields each file once. -/
theorem c8_amended_memoization (fs : LinkFS)
    (hnd : (fs.mdFiles.map Prod.fst).Nodup) (p : FPath) :
    occCount (linkRun fs).1.parses p ≤ 2 ∧
    (∀ content, (p, some content) ∈ fs.mdFiles →
      (extractHeadings content).map deriveAnchor ≠ [] →
      occCount (linkRun fs).1.parses p ≤ 1) := by
  have hex : (extractPhase fs ⟨[], [], [], [], []⟩).parses = readablePaths fs.mdFiles := by
    unfold extractPhase
    rw [extractFold_parses]
    rfl
  have hr1 : occCount (readablePaths fs.mdFiles) p ≤ 1 :=
    occCount_le_one_of_nodup _ ((readablePaths_sublist fs.mdFiles).nodup hnd) p
  have hvb := validateFold_parses_bound fs (extractPhase fs ⟨[], [], [], [], []⟩).links
    (extractPhase fs ⟨[], [], [], [], []⟩) p
  have hlr : (linkRun fs).1 =
      (extractPhase fs ⟨[], [], [], [], []⟩).links.foldl
        (fun s entry => checkLink fs s entry.1 entry.2)
        (extractPhase fs ⟨[], [], [], [], []⟩) := rfl
  rw [hlr]
  constructor
  · refine le_trans hvb ?_
    rw [hex]
    have hle : (if (aLookup (extractPhase fs ⟨[], [], [], [], []⟩).anchors p).isSome = true
        then 0 else 1) ≤ 1 := by
      split <;> omega
    omega
  · intro content hmem hanc
    have hcached : (aLookup (extractPhase fs ⟨[], [], [], [], []⟩).anchors p).isSome = true :=
      extractFold_cached fs.mdFiles _ p content hmem hanc
    refine le_trans hvb ?_
    rw [hex, if_pos hcached]
    omega

/-- Witness for the amended C8: in `noHeadingFS`, the no-heading target
`b.md` is parsed at most twice, and the heading-bearing source `a.md` at
most once. -/
theorem c8_witness :
    occCount (linkRun noHeadingFS).1.parses ["r", "docs", "b.md"] ≤ 2 ∧
    occCount (linkRun noHeadingFS).1.parses ["r", "docs", "a.md"] ≤ 1 := by
  constructor
  · exact (c8_amended_memoization noHeadingFS (by decide) ["r", "docs", "b.md"]).1
  · exact (c8_amended_memoization noHeadingFS (by decide) ["r", "docs", "a.md"]).2
      "# Top\n[x](b.md#sec)\n".toList (by decide) (by decide)

end Plexica
